import Mathlib

/-!
# Verification of gospec's identifier segmentation and import-alias allocation

Shallow embedding of `identifier.go` and `imports.go` from the `gospec`
repository.  Strings are modelled as `List Char`.  The Go `unicode`
classification functions (`IsUpper`, `IsTitle`, `IsLetter`, `IsNumber`,
`ToLower`, `ToTitle`, `IsSpace`) are modelled exactly on the ASCII range
and, beyond ASCII, on a finite set of representative code points taken
from the Unicode tables: `ℂ` (U+2102, an uppercase letter with no
lowercase mapping), `É`/`é` (U+00C9/U+00E9, a cased letter pair),
`Dž`/`dž` (U+01C5/U+01C6, a title-case letter and its lowercase), and
`Ⅻ`/`ⅻ` (U+216B/U+217B, a cased number-letter pair).  These exhibit the
scanner behaviours the ASCII range cannot: uncased uppercase letters that
`ToLower` leaves unchanged inside words, title-case letters, and cased
characters classified as numbers rather than letters.  All remaining
code points are classified as separators.  The alias allocator does not
depend on this choice: the Go regexp `[^[:digit:][:alpha:]_]` it uses
is built from POSIX classes, which are ASCII-only, and is modelled
exactly by `isIdentChar`.
The Go `map[string]string` alias table is modelled as an association list;
the allocator only ever inserts bindings for keys that are absent, so
appending a fresh binding coincides with Go's map insert.
-/

namespace GoSpec

/-! ## Character classification (model of the `unicode` package) -/

/-- Models `unicode.IsUpper` (category Lu): the ASCII uppercase letters
`A`..`Z` (65..90) plus the representative non-ASCII uppercase letters
`ℂ` (U+2102, uncased: it has no lowercase mapping) and `É` (U+00C9). -/
def goIsUpper (c : Char) : Bool :=
  (65 ≤ c.toNat && c.toNat ≤ 90) || c.toNat = 0x2102 || c.toNat = 0xC9

/-- Models `unicode.IsTitle` (category Lt): represented by `Dž` (U+01C5). -/
def goIsTitle (c : Char) : Bool := c.toNat = 0x1C5

/-- ASCII lowercase letters `a`..`z` (code points 97..122). -/
def goIsLowerAZ (c : Char) : Bool := 97 ≤ c.toNat && c.toNat ≤ 122

/-- Models `unicode.IsLetter` (categories L*): uppercase and title-case
letters, `a`..`z`, and the non-ASCII lowercase letters `é` (U+00E9) and
`dž` (U+01C6).  The Roman numerals are category Nl, not letters. -/
def goIsLetter (c : Char) : Bool :=
  goIsUpper c || goIsTitle c || goIsLowerAZ c || c.toNat = 0xE9 || c.toNat = 0x1C6

/-- Models `unicode.IsNumber` (categories N*): the digits `0`..`9`
(48..57) plus the cased number letters `Ⅻ` (U+216B) and `ⅻ` (U+217B),
category Nl. -/
def goIsNumber (c : Char) : Bool :=
  (48 ≤ c.toNat && c.toNat ≤ 57) || c.toNat = 0x216B || c.toNat = 0x217B

/-- Models `unicode.ToLower`: maps `A`..`Z` to `a`..`z` and the cased
non-ASCII representatives to their lowercase forms (`É`→`é`, `Dž`→`dž`,
`Ⅻ`→`ⅻ`); every other character — including the uncased uppercase
letter `ℂ` — is left unchanged, exactly as in the Unicode tables. -/
def goToLower (c : Char) : Char :=
  if 65 ≤ c.toNat ∧ c.toNat ≤ 90 then Char.ofNat (c.toNat + 32)
  else if c.toNat = 0xC9 then Char.ofNat 0xE9
  else if c.toNat = 0x1C5 then Char.ofNat 0x1C6
  else if c.toNat = 0x216B then Char.ofNat 0x217B
  else c

/-- Models `unicode.ToTitle`: maps `a`..`z` to `A`..`Z` and the cased
non-ASCII representatives to their title/upper forms (`é`→`É`,
`dž`→`Dž`, `ⅻ`→`Ⅻ`); everything else unchanged. -/
def goToTitle (c : Char) : Char :=
  if 97 ≤ c.toNat ∧ c.toNat ≤ 122 then Char.ofNat (c.toNat - 32)
  else if c.toNat = 0xE9 then Char.ofNat 0xC9
  else if c.toNat = 0x1C6 then Char.ofNat 0x1C5
  else if c.toNat = 0x217B then Char.ofNat 0x216B
  else c

/-- Models `unicode.IsSpace` on ASCII: space, tab, newline, vertical tab,
form feed, carriage return. -/
def goIsSpace (c : Char) : Bool :=
  c.toNat = 32 || c.toNat = 9 || c.toNat = 10 || c.toNat = 11 ||
  c.toNat = 12 || c.toNat = 13

/-! ## identifier.go -/

/-- `isUpper` from identifier.go: `unicode.IsUpper(r) || unicode.IsTitle(r)`. -/
def isUpper (r : Char) : Bool := goIsUpper r || goIsTitle r

/-- `isLower` from identifier.go: `unicode.IsLetter(r) || unicode.IsNumber(r)`. -/
def isLower (r : Char) : Bool := goIsLetter r || goIsNumber r

/-- The parsing state of identifier.go's `parser` struct:
the word being accumulated and the completed words. -/
structure parser where
  word : List Char
  words : List (List Char)

/-- `(*parser).shift`: append the current word to `words` and reset it;
a no-op when the current word is empty. -/
def parser.shift (p : parser) : parser :=
  if p.word.length > 0 then { word := [], words := p.words ++ [p.word] } else p

/-- `(*parser).write`: append the rune to the current word. -/
def parser.write (p : parser) (r : Char) : parser :=
  { p with word := p.word ++ [r] }

/-- The body of `parse`'s range loop for one rune: an uppercase rune is
lowercased and closes the pending word; then a letter-or-digit rune extends
the current word and anything else closes it. -/
def parseChar (p : parser) (r0 : Char) : parser :=
  let r := if isUpper r0 then goToLower r0 else r0
  let p1 := if isUpper r0 then p.shift else p
  if isLower r then p1.write r else p1.shift

/-- Models `strings.TrimSpace`: drop leading and trailing whitespace. -/
def trimSpace (s : List Char) : List Char :=
  (((s.dropWhile goIsSpace).reverse).dropWhile goIsSpace).reverse

/-- `parse` from identifier.go: trim the input, then scan it rune by rune,
and flush the final word. -/
def parse (s0 : List Char) : List (List Char) :=
  let s := trimSpace s0
  if s.length = 0 then []
  else
    let p := s.foldl parseChar { word := [], words := [] }
    p.shift.words

/-- Models `strings.Join elems sep`. -/
def goJoin (sep : List Char) (elems : List (List Char)) : List Char :=
  List.intercalate sep elems

/-- `title` from identifier.go: title-case the first rune, keep the rest. -/
def title (s : List Char) : List Char :=
  match s with
  | [] => []
  | r :: rest => goToTitle r :: rest

/-- `camel` from identifier.go: first word unchanged, the rest title-cased,
concatenated. -/
def camel (words : List (List Char)) : List Char :=
  match words with
  | [] => []
  | w :: ws => w ++ goJoin [] (ws.map title)

/-- `kebab` from identifier.go: words joined with `-`. -/
def kebab (words : List (List Char)) : List Char := goJoin ['-'] words

/-- `natural` from identifier.go: words joined with a space. -/
def natural (words : List (List Char)) : List Char := goJoin [' '] words

/-- `packge` from identifier.go: words joined with no separator. -/
def packge (words : List (List Char)) : List Char := goJoin [] words

/-- `pascal` from identifier.go: every word title-cased, concatenated. -/
def pascal (words : List (List Char)) : List Char :=
  if words.length = 0 then [] else goJoin [] (words.map title)

/-- `snake` from identifier.go: words joined with `_`. -/
def snake (words : List (List Char)) : List Char := goJoin ['_'] words

/-- The `Identifier` struct of identifier.go. -/
structure Identifier where
  Camel : List Char
  Kebab : List Char
  Natural : List Char
  Package : List Char
  Pascal : List Char
  Snake : List Char
  Source : List Char
deriving DecidableEq

/-- `NewIdentifier` from identifier.go: all six renderings are computed from
the single word sequence `parse s`. -/
def NewIdentifier (s : List Char) : Identifier :=
  let words := parse s
  { Camel := camel words
    Kebab := kebab words
    Natural := natural words
    Package := packge words
    Pascal := pascal words
    Snake := snake words
    Source := s }

/-! ## imports.go -/

/-- The Go keyword set `_keywords` from imports.go. -/
def keywords : List (List Char) :=
  [['b','r','e','a','k'],
   ['c','a','s','e'],
   ['c','h','a','n'],
   ['c','o','n','s','t'],
   ['c','o','n','t','i','n','u','e'],
   ['d','e','f','a','u','l','t'],
   ['d','e','f','e','r'],
   ['e','l','s','e'],
   ['f','a','l','l','t','h','r','o','u','g','h'],
   ['f','o','r'],
   ['f','u','n','c'],
   ['g','o'],
   ['g','o','t','o'],
   ['i','f'],
   ['i','m','p','o','r','t'],
   ['i','n','t','e','r','f','a','c','e'],
   ['m','a','p'],
   ['p','a','c','k','a','g','e'],
   ['r','a','n','g','e'],
   ['r','e','t','u','r','n'],
   ['s','e','l','e','c','t'],
   ['s','t','r','u','c','t'],
   ['s','w','i','t','c','h'],
   ['t','y','p','e'],
   ['v','a','r']]

/-- `isKeyword` from imports.go: membership in the keyword set. -/
def isKeyword (s : List Char) : Bool := decide (s ∈ keywords)

/-- The POSIX class `[:digit:]`: the ASCII digits `0`..`9`. -/
def asciiDigit (c : Char) : Bool := 48 ≤ c.toNat && c.toNat ≤ 57

/-- The POSIX class `[:alpha:]`: the ASCII letters `A`..`Z` and `a`..`z`. -/
def asciiAlpha (c : Char) : Bool :=
  (65 ≤ c.toNat && c.toNat ≤ 90) || (97 ≤ c.toNat && c.toNat ≤ 122)

/-- One character of the Go regexp class `[[:digit:][:alpha:]_]`
(`invalidIdentifierChar` matches its complement); POSIX classes are
ASCII-only in Go's regexp, so this definition is exact, not an ASCII
restriction, and deliberately excludes the non-ASCII letters and numbers
of the `unicode` model above. -/
def isIdentChar (c : Char) : Bool := asciiDigit c || asciiAlpha c || c = '_'

/-- The `Imports` map of imports.go, as an association list from import
paths to aliases. -/
abbrev Imports := List (List Char × List Char)

/-- Go map lookup `imp[path]`. -/
def lookup (imp : Imports) (path : List Char) : Option (List Char) :=
  match imp with
  | [] => none
  | kv :: rest => if kv.1 = path then some kv.2 else lookup rest path

/-- The values (aliases) stored in the table. -/
def vals (imp : Imports) : List (List Char) := imp.map Prod.snd

/-- `newAlias` from imports.go: join the path elements and strip every
character matched by `invalidIdentifierChar`. -/
def newAlias (elems : List (List Char)) : List Char :=
  (goJoin [] elems).filter isIdentChar

/-- The first-rune check in `isValid`: the range loop inspects only the
first rune and rejects the alias when it is not a letter (an empty alias
never enters the loop, but `isValid` rejects it beforehand). -/
def firstIsLetter (als : List Char) : Bool :=
  match als with
  | [] => true
  | r :: _ => goIsLetter r

/-- `(Imports).isValid` from imports.go: non-empty, not a keyword, first
rune a letter, and not already registered as some key's alias. -/
def isValid (imp : Imports) (als : List Char) : Bool :=
  if als.length = 0 || isKeyword als then false
  else if !(firstIsLetter als) then false
  else !(imp.any fun kv => decide (kv.2 = als))

/-- Models `strings.Split path "/"`: split at every `/`, keeping empty
elements; the empty string yields one empty element. -/
def splitSlash (s : List Char) : List (List Char) :=
  match s with
  | [] => [[]]
  | c :: rest =>
    match splitSlash rest with
    | [] => [[]]
    | w :: ws => if c = '/' then [] :: w :: ws else (c :: w) :: ws

/-- The candidates tried by `Add`'s first loop, in order: for `i` from `1`
to `len elems`, `newAlias` of the last `i` elements. -/
def suffixCandidates (elems : List (List Char)) : List (List Char) :=
  (List.range elems.length).map fun j => newAlias (elems.drop (elems.length - (j + 1)))

/-- An upper bound on the length of any alias stored in the table. -/
def maxValLen (imp : Imports) : Nat :=
  imp.foldr (fun kv m => max kv.2.length m) 0

/-- The `x`-prepending fallback loop of `Add`
(`for !imp.isValid(alias) { alias = "x" + alias }`), with explicit fuel.
`xLoop_reaches_valid` below shows `xFuel` iterations always suffice, so the
fuel never runs out on the fuel `Add` supplies. -/
def xLoop (imp : Imports) : Nat → List Char → List Char
  | 0, als => als
  | fuel + 1, als => if isValid imp als then als else xLoop imp fuel ('x' :: als)

/-- Fuel sufficient for `xLoop` to reach a valid alias: longer than every
stored alias and every keyword, with one spare step to put `x` in front. -/
def xFuel (imp : Imports) : Nat := maxValLen imp + 13

/-- `(Imports).Add` from imports.go: sentinel keys get no alias, known keys
return their alias, otherwise the first valid suffix candidate is bound, or
failing that the `x`-prepending fallback applied to the last tried candidate. -/
def Add (imp : Imports) (path : List Char) : Imports × List Char :=
  if path = [] ∨ path = ['.'] ∨ path = ['/'] then (imp, [])
  else
    match lookup imp path with
    | some als => (imp, als)
    | none =>
      let elems := splitSlash path
      match (suffixCandidates elems).find? (fun a => isValid imp a) with
      | some als => (imp ++ [(path, als)], als)
      | none =>
        let als := xLoop imp (xFuel imp) ((suffixCandidates elems).getLastD [])
        (imp ++ [(path, als)], als)

/-- Run a sequence of `Add` calls against a starting table. -/
def addAllFrom (imp : Imports) (paths : List (List Char)) : Imports :=
  paths.foldl (fun m p => (Add m p).1) imp

/-- The table resulting from a sequence of `Add` calls on the empty table. -/
def addAll (paths : List (List Char)) : Imports := addAllFrom [] paths

/-- A well-formed alias: non-empty, first rune a letter, not a keyword, and
made only of identifier characters. -/
def GoodAlias (a : List Char) : Prop :=
  a ≠ [] ∧ firstIsLetter a = true ∧ isKeyword a = false ∧ ∀ c ∈ a, isIdentChar c = true

/-- The alias-table invariant: keys are pairwise distinct, aliases are
pairwise distinct, and every stored alias is well-formed. -/
def GoodTable (imp : Imports) : Prop :=
  (imp.map Prod.fst).Nodup ∧ (vals imp).Nodup ∧ ∀ kv ∈ imp, GoodAlias kv.2

/-- A character of a word produced by `parse`: a letter or number
character; when it is uppercase or title-case it is uncased, i.e. a
fixed point of `ToLower` (it entered the word as the `ToLower` image of
an uppercase rune). -/
def WordChar (c : Char) : Prop :=
  isLower c = true ∧ (isUpper c = true → goToLower c = c)

/-- The `parse` scan invariant: every pending character is a word
character, and every completed word is non-empty and made of word
characters. -/
def StateOK (p : parser) : Prop :=
  (∀ c ∈ p.word, WordChar c) ∧ ∀ w ∈ p.words, w ≠ [] ∧ ∀ c ∈ w, WordChar c

/-! ## Basic lemmas -/

theorem mem_of_mem_dropWhile {p : α → Bool} :
    ∀ {l : List α} {a : α}, a ∈ l.dropWhile p → a ∈ l := by
  intro l
  induction l with
  | nil => intro a h; simp [List.dropWhile] at h
  | cons x xs ih =>
    intro a h
    rw [List.dropWhile_cons] at h
    by_cases hp : p x
    · simp [hp] at h
      exact List.mem_cons_of_mem x (ih h)
    · simp [hp] at h
      simpa using h

theorem mem_of_mem_trimSpace {s : List Char} {c : Char} (h : c ∈ trimSpace s) : c ∈ s := by
  unfold trimSpace at h
  rw [List.mem_reverse] at h
  have h2 := mem_of_mem_dropWhile h
  rw [List.mem_reverse] at h2
  exact mem_of_mem_dropWhile h2

theorem char_toNat_ofNat (n : Nat) (h : n.isValidChar) : (Char.ofNat n).toNat = n := by
  simp [Char.ofNat, h, Char.toNat, Char.ofNatAux, UInt32.toNat, BitVec.toNat_ofNatLt]

theorem isKeyword_length {s : List Char} (h : isKeyword s = true) : s.length ≤ 11 := by
  rw [isKeyword, decide_eq_true_iff] at h
  fin_cases h <;> decide

theorem mem_vals_length_le {imp : Imports} {a : List Char} (h : a ∈ vals imp) :
    a.length ≤ maxValLen imp := by
  induction imp with
  | nil => simp [vals] at h
  | cons kv rest ih =>
    rw [vals, List.map_cons, List.mem_cons] at h
    rw [maxValLen, List.foldr_cons]
    rcases h with rfl | h
    · exact Nat.le_max_left _ _
    · exact Nat.le_trans (ih h) (Nat.le_max_right _ _)

theorem isValid_iff {imp : Imports} {a : List Char} :
    isValid imp a = true ↔
      a ≠ [] ∧ isKeyword a = false ∧ firstIsLetter a = true ∧ ∀ kv ∈ imp, kv.2 ≠ a := by
  by_cases hkw : isKeyword a <;> by_cases hne : a = [] <;> by_cases hfl : firstIsLetter a <;>
    simp [isValid, hkw, hne, hfl, List.any_eq_true, List.length_eq_zero,
      Bool.not_eq_true] at *

/-! ## Allocator lemmas -/

theorem isValid_of_long {imp : Imports} {a : List Char}
    (hx : ∃ t, a = 'x' :: t) (hlong : maxValLen imp + 11 < a.length) :
    isValid imp a = true := by
  obtain ⟨t, rfl⟩ := hx
  rw [isValid_iff]
  refine ⟨by simp, ?_, by simp [firstIsLetter]; decide, ?_⟩
  · cases h : isKeyword ('x' :: t)
    · rfl
    · have := isKeyword_length h
      omega
  · intro kv hkv heq
    have hv : kv.2 ∈ vals imp := List.mem_map_of_mem Prod.snd hkv
    have := mem_vals_length_le hv
    rw [heq] at this
    omega

theorem xLoop_reaches_valid {imp : Imports} :
    ∀ fuel, 1 ≤ fuel → ∀ a : List Char, maxValLen imp + 12 < a.length + fuel →
      isValid imp (xLoop imp fuel a) = true := by
  intro fuel
  induction fuel with
  | zero => omega
  | succ n ih =>
    intro _ a hlen
    rw [xLoop]
    by_cases hv : isValid imp a
    · rw [if_pos hv]; exact hv
    · rw [if_neg hv]
      rcases Nat.eq_zero_or_pos n with rfl | hn
      · rw [xLoop]
        apply isValid_of_long ⟨a, rfl⟩
        simp only [List.length_cons]
        omega
      · apply ih hn
        simp only [List.length_cons]
        omega

theorem xLoop_chars {imp : Imports} :
    ∀ (fuel : Nat) (a : List Char) (c : Char), c ∈ xLoop imp fuel a → c = 'x' ∨ c ∈ a := by
  intro fuel
  induction fuel with
  | zero => intro a c h; right; exact h
  | succ n ih =>
    intro a c h
    rw [xLoop] at h
    by_cases hv : isValid imp a
    · rw [if_pos hv] at h; right; exact h
    · rw [if_neg hv] at h
      rcases ih _ _ h with h1 | h1
      · left; exact h1
      · rcases List.mem_cons.mp h1 with h2 | h2
        · left; exact h2
        · right; exact h2

theorem xLoop_zero (imp : Imports) (a : List Char) : xLoop imp 0 a = a := rfl

theorem xLoop_succ (imp : Imports) (n : Nat) (a : List Char) :
    xLoop imp (n + 1) a = if isValid imp a then a else xLoop imp n ('x' :: a) := rfl

theorem xLoop_stable {imp : Imports} :
    ∀ (f : Nat) (a : List Char), isValid imp (xLoop imp f a) = true →
      ∀ g, f ≤ g → xLoop imp g a = xLoop imp f a := by
  intro f
  induction f with
  | zero =>
    intro a hv g _
    rw [xLoop_zero] at hv ⊢
    induction g with
    | zero => rfl
    | succ m _ => rw [xLoop_succ, if_pos hv]
  | succ n ih =>
    intro a hv g hg
    by_cases ha : isValid imp a
    · rw [xLoop_succ, if_pos ha]
      cases g with
      | zero => omega
      | succ m => rw [xLoop_succ, if_pos ha]
    · rw [xLoop_succ, if_neg ha]
      rw [xLoop_succ, if_neg ha] at hv
      cases g with
      | zero => omega
      | succ m =>
        rw [xLoop_succ, if_neg ha]
        exact ih _ hv m (by omega)

theorem goJoin_nil_eq_flatten : ∀ elems : List (List Char), goJoin [] elems = elems.flatten := by
  intro elems
  induction elems with
  | nil => rfl
  | cons w ws ih =>
    cases ws with
    | nil => simp [goJoin, List.intercalate]
    | cons y ys =>
      rw [goJoin, List.intercalate] at ih ⊢
      simp only [List.intersperse] at ih ⊢
      rw [List.flatten_cons, List.flatten_cons, List.flatten_cons, ih, List.flatten_cons]
      simp

theorem newAlias_chars {elems : List (List Char)} {c : Char} (h : c ∈ newAlias elems) :
    isIdentChar c = true := by
  rw [newAlias] at h
  exact (List.mem_filter.mp h).2

theorem mem_suffixCandidates {elems : List (List Char)} {a : List Char}
    (h : a ∈ suffixCandidates elems) : ∃ l, a = newAlias l := by
  rw [suffixCandidates] at h
  obtain ⟨j, -, rfl⟩ := List.mem_map.mp h
  exact ⟨_, rfl⟩

theorem getLastD_cases (l : List (List Char)) (d : List Char) :
    l.getLastD d = d ∨ l.getLastD d ∈ l := by
  cases l with
  | nil => left; rfl
  | cons x xs =>
    right
    have h : x :: xs ≠ [] := by simp
    rw [List.getLastD_eq_getLast?, List.getLast?_eq_getLast _ h, Option.getD_some]
    exact List.getLast_mem h

theorem lookup_eq_none_iff {imp : Imports} {path : List Char} :
    lookup imp path = none ↔ path ∉ imp.map Prod.fst := by
  induction imp with
  | nil => simp [lookup]
  | cons kv rest ih =>
    rw [lookup]
    by_cases h : kv.1 = path
    · simp [h]
    · simp only [if_neg h, List.map_cons, List.mem_cons, ih]
      constructor
      · rintro hnone (h1 | h1)
        · exact h h1.symm
        · exact hnone h1
      · intro hmem
        exact fun h1 => hmem (Or.inr h1)

theorem lookup_some_mem {imp : Imports} {path a : List Char}
    (h : lookup imp path = some a) : (path, a) ∈ imp := by
  induction imp with
  | nil => simp [lookup] at h
  | cons kv rest ih =>
    rw [lookup] at h
    by_cases h1 : kv.1 = path
    · rw [if_pos h1] at h
      obtain ⟨k, v⟩ := kv
      injection h with h2
      simp only at h1
      rw [List.mem_cons]
      left
      rw [← h1, ← h2]
    · rw [if_neg h1] at h
      exact List.mem_cons_of_mem _ (ih h)

theorem lookup_append_left {imp : Imports} {path a : List Char} (t : Imports)
    (h : lookup imp path = some a) : lookup (imp ++ t) path = some a := by
  induction imp with
  | nil => simp [lookup] at h
  | cons kv rest ih =>
    rw [lookup] at h
    rw [List.cons_append, lookup]
    by_cases h1 : kv.1 = path
    · rw [if_pos h1] at h ⊢; exact h
    · rw [if_neg h1] at h ⊢; exact ih h

theorem lookup_append_right {imp : Imports} {path : List Char} (t : Imports)
    (h : lookup imp path = none) : lookup (imp ++ t) path = lookup t path := by
  induction imp with
  | nil => simp
  | cons kv rest ih =>
    rw [lookup] at h
    rw [List.cons_append, lookup]
    by_cases h1 : kv.1 = path
    · rw [if_pos h1] at h; exact absurd h (by simp)
    · rw [if_neg h1] at h ⊢; exact ih h

theorem vals_append (l1 l2 : Imports) : vals (l1 ++ l2) = vals l1 ++ vals l2 :=
  List.map_append _ _ _

/-- The three possible outcomes of one `Add` call: a sentinel key leaves the
table alone and returns no alias; a known key returns its stored alias; a
fresh key binds a newly constructed alias that is valid against the current
table and made of identifier characters. -/
theorem add_cases (imp : Imports) (path : List Char) :
    (Add imp path = (imp, []) ∧ (path = [] ∨ path = ['.'] ∨ path = ['/'])) ∨
    (∃ a, lookup imp path = some a ∧ Add imp path = (imp, a)) ∨
    (∃ a, lookup imp path = none ∧ isValid imp a = true ∧
      (∀ c ∈ a, isIdentChar c = true) ∧ Add imp path = (imp ++ [(path, a)], a)) := by
  by_cases hs : path = [] ∨ path = ['.'] ∨ path = ['/']
  · left
    exact ⟨by rw [Add, if_pos hs], hs⟩
  · right
    cases hl : lookup imp path with
    | some a =>
      left
      exact ⟨a, rfl, by simp [Add, hs, hl]⟩
    | none =>
      right
      cases hf : (suffixCandidates (splitSlash path)).find? (fun a => isValid imp a) with
      | some a =>
        refine ⟨a, rfl, List.find?_some hf, ?_, ?_⟩
        · intro c hc
          obtain ⟨l, rfl⟩ := mem_suffixCandidates (List.mem_of_find?_eq_some hf)
          exact newAlias_chars hc
        · simp [Add, hs, hl, hf]
      | none =>
        refine ⟨xLoop imp (xFuel imp) ((suffixCandidates (splitSlash path)).getLastD []),
          rfl, ?_, ?_, ?_⟩
        · exact xLoop_reaches_valid (xFuel imp) (by rw [xFuel]; omega) _ (by rw [xFuel]; omega)
        · intro c hc
          rcases xLoop_chars _ _ _ hc with rfl | hc2
          · decide
          · rcases getLastD_cases (suffixCandidates (splitSlash path)) [] with he | hm
            · rw [he] at hc2; simp at hc2
            · obtain ⟨l, hl2⟩ := mem_suffixCandidates hm
              rw [hl2] at hc2
              exact newAlias_chars hc2
        · simp [Add, hs, hl, hf]

theorem goodAlias_of_valid {imp : Imports} {a : List Char}
    (hv : isValid imp a = true) (hc : ∀ c ∈ a, isIdentChar c = true) : GoodAlias a := by
  rw [isValid_iff] at hv
  exact ⟨hv.1, hv.2.2.1, hv.2.1, hc⟩

theorem goodTable_add {imp : Imports} (path : List Char) (h : GoodTable imp) :
    GoodTable (Add imp path).1 := by
  rcases add_cases imp path with ⟨he, -⟩ | ⟨a, -, he⟩ | ⟨a, hl, hv, hc, he⟩
  · rw [he]; exact h
  · rw [he]; exact h
  · rw [he]
    obtain ⟨hk, hvals, hgood⟩ := h
    have hvspec := (isValid_iff.mp hv).2.2.2
    refine ⟨?_, ?_, ?_⟩
    · rw [List.map_append, List.nodup_append]
      refine ⟨hk, by simp, ?_⟩
      intro x hx
      simp only [List.map_cons, List.map_nil, List.mem_singleton]
      intro hxe
      subst hxe
      exact (lookup_eq_none_iff.mp hl) hx
    · rw [vals_append, List.nodup_append]
      refine ⟨hvals, by simp [vals], ?_⟩
      intro x hx
      simp only [vals, List.map_cons, List.map_nil, List.mem_singleton]
      intro hxe
      subst hxe
      obtain ⟨kv, hkv, hkv2⟩ := List.mem_map.mp hx
      exact hvspec kv hkv hkv2
    · intro kv hkv
      rcases List.mem_append.mp hkv with hm | hm
      · exact hgood kv hm
      · rw [List.mem_singleton] at hm
        subst hm
        exact goodAlias_of_valid hv hc

theorem goodTable_empty : GoodTable [] := ⟨List.nodup_nil, List.nodup_nil, by simp⟩

theorem goodTable_addAllFrom {imp : Imports} (h : GoodTable imp) :
    ∀ paths : List (List Char), GoodTable (addAllFrom imp paths) := by
  intro paths
  induction paths generalizing imp with
  | nil => exact h
  | cons p ps ih => exact ih (goodTable_add p h)

theorem goodTable_addAll (paths : List (List Char)) : GoodTable (addAll paths) :=
  goodTable_addAllFrom goodTable_empty paths

theorem lookup_add_mono {imp : Imports} {k a : List Char} (p : List Char)
    (h : lookup imp k = some a) : lookup (Add imp p).1 k = some a := by
  rcases add_cases imp p with ⟨he, -⟩ | ⟨b, -, he⟩ | ⟨b, -, -, -, he⟩
  · rw [he]; exact h
  · rw [he]; exact h
  · rw [he]; exact lookup_append_left _ h

theorem lookup_addAllFrom_mono {imp : Imports} {k a : List Char}
    (h : lookup imp k = some a) : ∀ more, lookup (addAllFrom imp more) k = some a := by
  intro more
  induction more generalizing imp with
  | nil => exact h
  | cons p ps ih => exact ih (lookup_add_mono p h)

theorem add_of_lookup_some {imp : Imports} {k a : List Char}
    (hs : ¬(k = [] ∨ k = ['.'] ∨ k = ['/'])) (h : lookup imp k = some a) :
    Add imp k = (imp, a) := by
  simp [Add, hs, h]

theorem lookup_after_add {imp : Imports} {k : List Char}
    (hs : ¬(k = [] ∨ k = ['.'] ∨ k = ['/'])) :
    lookup (Add imp k).1 k = some (Add imp k).2 := by
  rcases add_cases imp k with ⟨-, hsen⟩ | ⟨a, hl, he⟩ | ⟨a, hl, -, -, he⟩
  · exact absurd hsen hs
  · rw [he]; exact hl
  · rw [he]
    simp only
    rw [lookup_append_right _ hl, lookup]
    simp

theorem goodAlias_props {a : List Char} (h : GoodAlias a) :
    goIsLetter (a.headD ' ') = true ∧ isKeyword a = false ∧
      ∀ c ∈ a, isIdentChar c = true := by
  obtain ⟨hne, hfl, hkw, hc⟩ := h
  cases a with
  | nil => simp at hne
  | cons c t => exact ⟨by simpa [firstIsLetter] using hfl, hkw, hc⟩

theorem add_result_goodAlias {imp : Imports} (hg : GoodTable imp) (path : List Char)
    (hne : (Add imp path).2 ≠ []) : GoodAlias ((Add imp path).2) := by
  rcases add_cases imp path with ⟨he, -⟩ | ⟨a, hl, he⟩ | ⟨a, hl, hv, hc, he⟩
  · rw [he] at hne; simp at hne
  · rw [he]
    exact hg.2.2 (path, a) (lookup_some_mem hl)
  · rw [he]
    exact goodAlias_of_valid hv hc

/-! ## The claims -/

/-- C5: No-alias rule with atomicity — `Add ""`, `Add "."`, and `Add "/"`
each return the empty string and leave the table entirely unchanged. -/
theorem add_no_alias (imp : Imports) :
    Add imp [] = (imp, []) ∧ Add imp ['.'] = (imp, []) ∧ Add imp ['/'] = (imp, []) := by
  refine ⟨?_, ?_, ?_⟩ <;> simp [Add]

/-- C9: Frame property of `Add` — the table only grows: the new table
extends the old one (every previously existing key-to-alias binding is
still present, unchanged, as a prefix) by at most one new entry. -/
theorem add_frame (imp : Imports) (path : List Char) :
    ∃ t, (Add imp path).1 = imp ++ t ∧ t.length ≤ 1 := by
  rcases add_cases imp path with ⟨he, -⟩ | ⟨a, -, he⟩ | ⟨a, -, -, -, he⟩
  · exact ⟨[], by simp [he]⟩
  · exact ⟨[], by simp [he]⟩
  · exact ⟨[(path, a)], by simp [he]⟩

/-- C1: Uniqueness of aliases — after any finite sequence of `Add` calls
starting from the empty table, the keys are pairwise distinct and the
stored aliases are pairwise distinct, so no two distinct keys map to the
same alias. -/
theorem addAll_aliases_nodup (paths : List (List Char)) :
    ((addAll paths).map Prod.fst).Nodup ∧ (vals (addAll paths)).Nodup :=
  ⟨(goodTable_addAll paths).1, (goodTable_addAll paths).2.1⟩

/-- C2: Validity of aliases — every non-empty alias returned by `Add` on a
reachable table starts with a letter, is not a Go keyword, and consists
only of letters, digits, and underscores. -/
theorem add_returns_valid_alias (paths : List (List Char)) (path : List Char)
    (hne : (Add (addAll paths) path).2 ≠ []) :
    goIsLetter (((Add (addAll paths) path).2).headD ' ') = true ∧
    isKeyword ((Add (addAll paths) path).2) = false ∧
    ∀ c ∈ (Add (addAll paths) path).2, isIdentChar c = true :=
  goodAlias_props (add_result_goodAlias (goodTable_addAll paths) path hne)

theorem add_returns_valid_alias_witness :
    goIsLetter (((Add (addAll []) ['a']).2).headD ' ') = true ∧
    isKeyword ((Add (addAll []) ['a']).2) = false ∧
    ∀ c ∈ (Add (addAll []) ['a']).2, isIdentChar c = true :=
  add_returns_valid_alias [] ['a'] (by decide)

/-- C3: Termination of allocation — the `x`-prepending fallback loop
reaches a valid, unused candidate after at most `xFuel imp` iterations
(each iteration strictly grows the candidate, and only finitely many
aliases are in use), so running it with any larger fuel changes nothing:
the loop genuinely terminates and `Add` always returns. -/
theorem alias_fallback_terminates (imp : Imports) (a : List Char) :
    isValid imp (xLoop imp (xFuel imp) a) = true ∧
    ∀ fuel, xFuel imp ≤ fuel → xLoop imp fuel a = xLoop imp (xFuel imp) a := by
  have hv : isValid imp (xLoop imp (xFuel imp) a) = true :=
    xLoop_reaches_valid (xFuel imp) (by rw [xFuel]; omega) a (by rw [xFuel]; omega)
  exact ⟨hv, fun fuel hf => xLoop_stable _ _ hv fuel hf⟩

theorem alias_fallback_terminates_witness :
    isValid [] (xLoop [] (xFuel []) []) = true ∧
    xLoop [] 14 [] = xLoop [] (xFuel []) [] :=
  ⟨(alias_fallback_terminates [] []).1,
   (alias_fallback_terminates [] []).2 14 (by decide)⟩

/-- C4: Idempotence of `Add` — once `Add k` has returned an alias on a
reachable table, calling `Add k` again immediately returns the same pair
(so the entry count is unchanged), and calling `Add k` after any other
`Add` calls in between still returns that same alias. -/
theorem add_idempotent (paths : List (List Char)) (k : List Char) (more : List (List Char)) :
    Add ((Add (addAll paths) k).1) k = Add (addAll paths) k ∧
    (Add (addAllFrom ((Add (addAll paths) k).1) more) k).2 = (Add (addAll paths) k).2 := by
  by_cases hs : k = [] ∨ k = ['.'] ∨ k = ['/']
  · constructor
    · simp [Add, hs]
    · simp [Add, hs]
  · have h1 : lookup ((Add (addAll paths) k).1) k = some ((Add (addAll paths) k).2) :=
      lookup_after_add hs
    constructor
    · rw [add_of_lookup_some hs h1]
    · have h2 := lookup_addAllFrom_mono h1 more
      rw [add_of_lookup_some hs h2]

/-- C10: Aliases are pure ASCII — every character of every alias returned
by `Add` on a reachable table is an ASCII letter, digit, or underscore
(the class kept by `invalidIdentifierChar`, which also covers the
prepended `x`); no character at or above code point 128 is ever such a
character; and a path element consisting only of characters outside that
class contributes nothing to the candidate built by `newAlias`. -/
theorem aliases_ascii_only :
    (∀ (paths : List (List Char)) (path : List Char),
      ∀ c ∈ (Add (addAll paths) path).2, isIdentChar c = true) ∧
    (∀ c : Char, 128 ≤ c.toNat → isIdentChar c = false) ∧
    (∀ (pre post : List (List Char)) (elem : List Char),
      (∀ c ∈ elem, isIdentChar c = false) →
      newAlias (pre ++ elem :: post) = newAlias (pre ++ post)) := by
  refine ⟨?_, ?_, ?_⟩
  · intro paths path c hc
    by_cases hne : (Add (addAll paths) path).2 = []
    · rw [hne] at hc; simp at hc
    · exact (goodAlias_props (add_result_goodAlias (goodTable_addAll paths) path hne)).2.2 c hc
  · intro c h
    by_cases he : c = '_'
    · subst he; exact absurd h (by decide)
    · cases hic : isIdentChar c
      · rfl
      · exfalso
        simp only [isIdentChar, Bool.or_eq_true, asciiDigit, asciiAlpha,
          Bool.and_eq_true, decide_eq_true_iff] at hic
        rcases hic with (h1 | h1) | h1
        · omega
        · rcases h1 with h1 | h1 <;> omega
        · exact he h1
  · intro pre post elem hf
    have hfe : elem.filter isIdentChar = [] :=
      List.filter_eq_nil_iff.mpr (fun c hc => by simp [hf c hc])
    rw [newAlias, newAlias, goJoin_nil_eq_flatten, goJoin_nil_eq_flatten,
      List.flatten_append, List.flatten_append, List.flatten_cons,
      List.filter_append, List.filter_append, List.filter_append, hfe]
    simp

theorem aliases_ascii_only_witness :
    isIdentChar 'j' = true ∧ isIdentChar 'é' = false ∧
    newAlias ([['a']] ++ ['é'] :: [['b']]) = newAlias ([['a']] ++ [['b']]) :=
  ⟨aliases_ascii_only.1 [] ['a','/','j'] 'j' (by decide),
   aliases_ascii_only.2.1 'é' (by decide),
   aliases_ascii_only.2.2 [['a']] [['b']] ['é'] (by decide)⟩

/-! ## Segmentation lemmas -/

theorem goToLower_image (r : Char) :
    (97 ≤ (goToLower r).toNat ∧ (goToLower r).toNat ≤ 122) ∨
    (goToLower r).toNat = 0xE9 ∨ (goToLower r).toNat = 0x1C6 ∨
    (goToLower r).toNat = 0x217B ∨
    (goToLower r = r ∧ ¬(65 ≤ r.toNat ∧ r.toNat ≤ 90) ∧ r.toNat ≠ 0xC9 ∧
      r.toNat ≠ 0x1C5 ∧ r.toNat ≠ 0x216B) := by
  rw [goToLower]
  split
  · rename_i h
    left
    rw [char_toNat_ofNat _ (Or.inl (by omega))]
    omega
  · split
    · right; left
      rw [char_toNat_ofNat _ (Or.inl (by omega))]
    · split
      · right; right; left
        rw [char_toNat_ofNat _ (Or.inl (by omega))]
      · split
        · right; right; right; left
          rw [char_toNat_ofNat _ (Or.inl (by omega))]
        · rename_i h1 h2 h3 h4
          exact Or.inr (Or.inr (Or.inr (Or.inr ⟨rfl, h1, h2, h3, h4⟩)))

theorem goToLower_fixed {c : Char} (h1 : ¬(65 ≤ c.toNat ∧ c.toNat ≤ 90))
    (h2 : c.toNat ≠ 0xC9) (h3 : c.toNat ≠ 0x1C5) (h4 : c.toNat ≠ 0x216B) :
    goToLower c = c := by
  rw [goToLower, if_neg h1, if_neg h2, if_neg h3, if_neg h4]

theorem goToLower_idem (r : Char) : goToLower (goToLower r) = goToLower r := by
  rcases goToLower_image r with h | h | h | h | h
  · exact goToLower_fixed (by omega) (by omega) (by omega) (by omega)
  · exact goToLower_fixed (by omega) (by omega) (by omega) (by omega)
  · exact goToLower_fixed (by omega) (by omega) (by omega) (by omega)
  · exact goToLower_fixed (by omega) (by omega) (by omega) (by omega)
  · rw [h.1]
    exact h.1

theorem stateOK_shift {p : parser} (h : StateOK p) : StateOK p.shift := by
  obtain ⟨hw, hws⟩ := h
  rw [parser.shift]
  by_cases hl : p.word.length > 0
  · rw [if_pos hl]
    refine ⟨by simp, ?_⟩
    intro w hw2
    rcases List.mem_append.mp hw2 with hm | hm
    · exact hws w hm
    · rw [List.mem_singleton] at hm
      subst hm
      refine ⟨?_, hw⟩
      intro he
      rw [he] at hl
      simp at hl
  · rw [if_neg hl]
    exact ⟨hw, hws⟩

theorem stateOK_write {p : parser} {r : Char} (h : StateOK p) (hr : WordChar r) :
    StateOK (p.write r) := by
  obtain ⟨hw, hws⟩ := h
  rw [parser.write]
  refine ⟨?_, hws⟩
  intro c hc
  rcases List.mem_append.mp hc with hm | hm
  · exact hw c hm
  · rw [List.mem_singleton] at hm
    subst hm
    exact hr

theorem stateOK_parseChar {p : parser} (r : Char) (h : StateOK p) :
    StateOK (parseChar p r) := by
  cases hu : isUpper r with
  | true =>
    by_cases hl : isLower (goToLower r)
    · have he : parseChar p r = (p.shift).write (goToLower r) := by
        simp [parseChar, hu, hl]
      rw [he]
      exact stateOK_write (stateOK_shift h) ⟨hl, fun _ => goToLower_idem r⟩
    · have he : parseChar p r = (p.shift).shift := by
        simp [parseChar, hu, hl]
      rw [he]
      exact stateOK_shift (stateOK_shift h)
  | false =>
    by_cases hl : isLower r
    · have he : parseChar p r = p.write r := by
        simp [parseChar, hu, hl]
      rw [he]
      refine stateOK_write h ⟨hl, ?_⟩
      intro hup
      rw [hu] at hup
      exact absurd hup (by simp)
    · have he : parseChar p r = p.shift := by
        simp [parseChar, hu, hl]
      rw [he]
      exact stateOK_shift h

theorem stateOK_foldl :
    ∀ (l : List Char) (p : parser), StateOK p → StateOK (l.foldl parseChar p) := by
  intro l
  induction l with
  | nil => intro p h; exact h
  | cons c cs ih =>
    intro p h
    exact ih _ (stateOK_parseChar c h)

theorem parseChar_space {c : Char} (h : goIsSpace c = true) (ws : List (List Char)) :
    parseChar { word := [], words := ws } c = { word := [], words := ws } := by
  simp only [goIsSpace, Bool.or_eq_true, decide_eq_true_iff] at h
  have hu : isUpper c = false := by
    cases hx : isUpper c
    · rfl
    · exfalso
      simp only [isUpper, goIsUpper, goIsTitle, Bool.or_eq_true, Bool.and_eq_true,
        decide_eq_true_iff] at hx
      omega
  have hl : isLower c = false := by
    cases hx : isLower c
    · rfl
    · exfalso
      simp only [isLower, goIsLetter, goIsNumber, goIsUpper, goIsTitle, goIsLowerAZ,
        Bool.or_eq_true, Bool.and_eq_true, decide_eq_true_iff] at hx
      omega
  simp [parseChar, hu, hl, parser.shift]

theorem foldl_space : ∀ l : List Char, (∀ c ∈ l, goIsSpace c = true) →
    l.foldl parseChar { word := [], words := [] } = { word := [], words := [] } := by
  intro l
  induction l with
  | nil => intro _; rfl
  | cons c cs ih =>
    intro h
    rw [List.foldl_cons, parseChar_space (h c (by simp)) []]
    exact ih (fun x hx => h x (List.mem_cons_of_mem _ hx))

/-- C6: End-to-end fixtures — `"UserID"` segments to `["user","i","d"]`
with camel rendering `"userID"`, and `"user_id"` segments to
`["user","id"]` with snake `"user_id"`, pascal `"UserId"`, and kebab
`"user-id"`. -/
theorem identifier_fixtures :
    parse ['U','s','e','r','I','D'] = [['u','s','e','r'], ['i'], ['d']] ∧
    camel (parse ['U','s','e','r','I','D']) = ['u','s','e','r','I','D'] ∧
    parse ['u','s','e','r','_','i','d'] = [['u','s','e','r'], ['i','d']] ∧
    snake (parse ['u','s','e','r','_','i','d']) = ['u','s','e','r','_','i','d'] ∧
    pascal (parse ['u','s','e','r','_','i','d']) = ['U','s','e','r','I','d'] ∧
    kebab (parse ['u','s','e','r','_','i','d']) = ['u','s','e','r','-','i','d'] := by
  decide

/-- C7 counterexample: the original claim — every word is all-lowercase,
containing no uppercase or title-case character, and unchanged by
lowercasing — is false on the code.  `parse "ℂ"` yields the single word
`"ℂ"` whose character is uppercase (`unicode.IsUpper('ℂ')` holds; it is
uncased, so `ToLower` keeps it), and `parse "Ⅻ"` yields the word `"Ⅻ"`
which lowercasing changes (`ToLower('Ⅻ') = 'ⅻ'`), because `Ⅻ` is a
cased number letter that `isUpper` does not lower on entry. -/
theorem parse_uppercase_cex :
    parse ['ℂ'] = [['ℂ']] ∧ isUpper 'ℂ' = true ∧
    parse ['Ⅻ'] = [['Ⅻ']] ∧ List.map goToLower ['Ⅻ'] ≠ ['Ⅻ'] := by
  decide

/-- C7, amended: every word produced by `parse` is non-empty and consists
only of letter or number characters — hence contains no separator
character (whitespace, underscore, hyphen) — and any uppercase or
title-case character occurring in a word is uncased: `ToLower` leaves it
unchanged (it entered the word as a `ToLower` image).  Words are *not*
always all-lowercase: uncased uppercase letters such as `ℂ` survive, and
cased number letters such as `Ⅻ` enter words without being lowered. -/
theorem parse_words_wellformed (s w : List Char) (hw : w ∈ parse s) :
    w ≠ [] ∧ ∀ c ∈ w, isLower c = true ∧ (isUpper c = true → goToLower c = c) ∧
      goIsSpace c = false ∧ c ≠ '_' ∧ c ≠ '-' := by
  have hsOK : StateOK ((trimSpace s).foldl parseChar { word := [], words := [] }) :=
    stateOK_foldl _ _ ⟨by simp, by simp⟩
  have hshift := stateOK_shift hsOK
  simp only [parse] at hw
  by_cases hlen : (trimSpace s).length = 0
  · rw [if_pos hlen] at hw
    simp at hw
  · rw [if_neg hlen] at hw
    obtain ⟨hne, hwc⟩ := hshift.2 w hw
    refine ⟨hne, ?_⟩
    intro c hc
    obtain ⟨h1, h2⟩ := hwc c hc
    refine ⟨h1, h2, ?_, ?_, ?_⟩
    · cases hsp : goIsSpace c
      · rfl
      · exfalso
        simp only [goIsSpace, Bool.or_eq_true, decide_eq_true_iff] at hsp
        simp only [isLower, goIsLetter, goIsNumber, goIsUpper, goIsTitle, goIsLowerAZ,
          Bool.or_eq_true, Bool.and_eq_true, decide_eq_true_iff] at h1
        omega
    · intro he
      rw [he] at h1
      exact absurd h1 (by decide)
    · intro he
      rw [he] at h1
      exact absurd h1 (by decide)

theorem parse_words_wellformed_witness :
    ['a','b'] ≠ ([] : List Char) ∧ ∀ c ∈ ['a','b'],
      isLower c = true ∧ (isUpper c = true → goToLower c = c) ∧
      goIsSpace c = false ∧ c ≠ '_' ∧ c ≠ '-' :=
  parse_words_wellformed ['a','b'] ['a','b'] (by decide)

/-- C8: Empty and whitespace-only inputs — an input made only of
whitespace (including the empty input) segments to the empty word
sequence, and all six renderings of `NewIdentifier` on it are empty. -/
theorem whitespace_input_empty (s : List Char) (h : ∀ c ∈ s, goIsSpace c = true) :
    parse s = [] ∧ NewIdentifier s =
      { Camel := [], Kebab := [], Natural := [], Package := [], Pascal := [],
        Snake := [], Source := s } := by
  have hp : parse s = [] := by
    simp only [parse]
    by_cases hlen : (trimSpace s).length = 0
    · rw [if_pos hlen]
    · rw [if_neg hlen]
      rw [foldl_space _ (fun c hc => h c (mem_of_mem_trimSpace hc))]
      simp [parser.shift]
  refine ⟨hp, ?_⟩
  simp [NewIdentifier, hp, camel, kebab, natural, packge, pascal, snake, goJoin,
    List.intercalate, List.intersperse]

theorem whitespace_input_empty_witness :
    parse [' '] = [] ∧ NewIdentifier [' '] =
      { Camel := [], Kebab := [], Natural := [], Package := [], Pascal := [],
        Snake := [], Source := [' '] } :=
  whitespace_input_empty [' '] (by decide)

end GoSpec
